import Mathlib

/-!
Verification of the TaleCast episode synchronization engine.

Shallow embedding of the core subsystems of the repository:
selection policy (`Podcast::should_download`), fetch ordering
(`Podcast::sync`), the transfer decisions of the live
`Episode::download` in main.rs, the dedup ledger
(`DownloadedEpisodes::load` / `append`), the naming template
interpreter (`rename_file`), and the per-feed orchestration order
(`Podcast::sync`).

Machine integers are modelled as `Nat` / `Int` with explicit wrapping
(`% 2^64`) where the Rust code performs `usize` / `as u64` arithmetic.
Strings are modelled as `List Char`.
-/

namespace TaleCast

/-- Convert a string literal to the `List Char` representation used throughout. -/
def str (s : String) : List Char := s.data

/-! ## Character classes (Rust `char::is_whitespace`, ASCII digits) -/

/-- Rust `char::is_whitespace`: the Unicode White_Space code points.
Used by `str::split_whitespace` and `str::trim` in `DownloadedEpisodes::load`. -/
def rustIsWs (c : Char) : Bool :=
  let n := c.toNat
  n == 9 || n == 10 || n == 11 || n == 12 || n == 13 || n == 32 ||
  n == 133 || n == 160 || n == 5760 || (8192 ≤ n && n ≤ 8202) ||
  n == 8232 || n == 8233 || n == 8239 || n == 8287 || n == 12288

/-- ASCII decimal digit test (Rust `char::to_digit(10)` succeeds). -/
def isDigitChar (c : Char) : Bool :=
  48 ≤ c.toNat && c.toNat ≤ 57

/-! ## Decimal formatting and parsing

`DownloadedEpisodes::append` writes the timestamp with `{}` (decimal
formatting of `i64`); `DownloadedEpisodes::load` parses it back with
`str::parse::<i64>`. -/

/-- The ASCII digit character for a digit value `0..9`. -/
def digitChar : Nat → Char
  | 0 => '0' | 1 => '1' | 2 => '2' | 3 => '3' | 4 => '4'
  | 5 => '5' | 6 => '6' | 7 => '7' | 8 => '8' | _ => '9'

/-- Fuelled big-endian decimal digit expansion of a natural number. -/
def natDigitsAux : Nat → Nat → List Char
  | 0, _ => []
  | fuel + 1, n =>
    if n < 10 then [digitChar n]
    else natDigitsAux fuel (n / 10) ++ [digitChar (n % 10)]

/-- Big-endian decimal representation of a natural number (Rust `{}` on unsigned). -/
def natDigits (n : Nat) : List Char := natDigitsAux (n + 1) n

/-- Decimal representation of a signed integer (Rust `{}` formatting of `i64`). -/
def intRepr (t : Int) : List Char :=
  if t < 0 then '-' :: natDigits (-t).toNat else natDigits t.toNat

/-- Accumulating decimal parser over a run of ASCII digit characters. -/
def parseDigitsAux (acc : Nat) : List Char → Option Nat
  | [] => some acc
  | c :: cs =>
    if isDigitChar c then parseDigitsAux (acc * 10 + (c.toNat - 48)) cs
    else none

/-- Parse a nonempty all-digit string as a natural number; `none` otherwise. -/
def parseDigits? (l : List Char) : Option Nat :=
  match l with
  | [] => none
  | _ => parseDigitsAux 0 l

/-- Rust `str::parse::<i64>`: optional sign, then a nonempty ASCII digit run,
rejected when the value is out of the `i64` range. -/
def parseI64? (l : List Char) : Option Int :=
  match l with
  | '+' :: rest =>
    (parseDigits? rest).bind fun n =>
      if n ≤ 2 ^ 63 - 1 then some (n : Int) else none
  | '-' :: rest =>
    (parseDigits? rest).bind fun n =>
      if n ≤ 2 ^ 63 then some (-(n : Int)) else none
  | _ =>
    (parseDigits? l).bind fun n =>
      if n ≤ 2 ^ 63 - 1 then some (n : Int) else none

/-! ## Tokenization and line splitting (`split_whitespace`, `lines`, `trim`) -/

/-- Accumulating scanner behind `wsTokens`; `acc` holds the reversed
characters of the token being read. -/
def wsTokensAux : List Char → List Char → List (List Char)
  | acc, [] => if acc.isEmpty then [] else [acc.reverse]
  | acc, c :: cs =>
    if rustIsWs c then
      if acc.isEmpty then wsTokensAux [] cs else acc.reverse :: wsTokensAux [] cs
    else wsTokensAux (c :: acc) cs

/-- Rust `str::split_whitespace`: maximal nonempty runs of non-whitespace. -/
def wsTokens (l : List Char) : List (List Char) := wsTokensAux [] l

/-- Split on `'\n'` separators, keeping empty fields (like `str::split('\n')`). -/
def splitNl : List Char → List (List Char)
  | [] => [[]]
  | c :: cs =>
    if c = '\n' then [] :: splitNl cs
    else
      match splitNl cs with
      | [] => [[c]]
      | p :: ps => (c :: p) :: ps

/-- Remove one trailing carriage return (Rust `lines` strips `"\r\n"` endings). -/
def stripCR (l : List Char) : List Char :=
  if l.getLast? = some '\r' then l.dropLast else l

/-- Rust `str::lines`: split at `'\n'`, drop an optional final line terminator,
strip a trailing `'\r'` from each line. -/
def rustLines (l : List Char) : List (List Char) :=
  if l.isEmpty then []
  else if l.getLast? = some '\n' then ((splitNl l).dropLast).map stripCR
  else (splitNl l).map stripCR

/-- Rust `str::trim`: drop Unicode whitespace from both ends. -/
def rustTrim (l : List Char) : List Char :=
  (((l.dropWhile rustIsWs).reverse.dropWhile rustIsWs)).reverse

/-! ## The ledger (`DownloadedEpisodes`) -/

/-- Wrap a signed integer into the unsigned 64-bit range (Rust `as u64`). -/
def u64OfI64 (t : Int) : Nat := (t % (2 ^ 64 : Int)).toNat

/-- Insert-or-replace on an association list keyed by episode id: the model of
`HashMap::insert` in `DownloadedEpisodes::load`. -/
def insertAssoc (k : List Char) (v : Nat) :
    List (List Char × Nat) → List (List Char × Nat)
  | [] => [(k, v)]
  | (k', v') :: rest =>
    if k' = k then (k, v) :: rest else (k', v') :: insertAssoc k v rest

/-- Membership test of `DownloadedEpisodes::contains_episode` (keyed by id). -/
def containsId (m : List (List Char × Nat)) (k : List Char) : Bool :=
  m.any fun p => p.1 = k

/-- Process one ledger line as `DownloadedEpisodes::load` does: with at least
two whitespace-separated tokens the first is the id and the second must parse
as an `i64` timestamp (`expect` panics otherwise, modelled by `none`); with
fewer tokens the line is skipped. -/
def processLine (m : List (List Char × Nat)) (line : List Char) :
    Option (List (List Char × Nat)) :=
  match wsTokens line with
  | k :: ts :: _ =>
    match parseI64? ts with
    | some t => some (insertAssoc k (u64OfI64 t) m)
    | none => none
  | _ => some m

/-- Fold `processLine` over the lines of the store. -/
def processLines : List (List Char × Nat) → List (List Char) →
    Option (List (List Char × Nat))
  | m, [] => some m
  | m, l :: ls =>
    match processLine m l with
    | some m2 => processLines m2 ls
    | none => none

/-- `DownloadedEpisodes::load` on the file content (an absent file behaves as
empty content): trim, split into lines, process each line into the map.
`none` models the `expect` panic on a non-`i64` second token. -/
def loadMap (content : List Char) : Option (List (List Char × Nat)) :=
  processLines [] (rustLines (rustTrim content))

/-- The body (without the trailing newline) of one line written by
`DownloadedEpisodes::append`: `"{} {} \"{}\"" % (guid, ts, title)`. -/
def lineBody (guid : List Char) (ts : Int) (title : List Char) : List Char :=
  guid ++ ' ' :: (intRepr ts ++ ' ' :: '"' :: (title ++ ['"']))

/-- One line written by `DownloadedEpisodes::append`:
`writeln!(file, "{} {} \"{}\"", guid, current_unix(), title)`. -/
def appendLine (guid : List Char) (ts : Int) (title : List Char) : List Char :=
  lineBody guid ts title ++ ['\n']

/-- Concatenation of newline-terminated lines: the shape of a store written
by repeated appends (and, for claim C5, possibly corrupted lines). -/
def bodiesContent : List (List Char) → List Char
  | [] => []
  | b :: bs => (b ++ ['\n']) ++ bodiesContent bs

/-- Join line bodies with single newline separators (no trailing newline). -/
def joinNl : List (List Char) → List Char
  | [] => []
  | [b] => b
  | b :: bs => b ++ '\n' :: joinNl bs

/-- One recorded append: the episode id, the `current_unix()` value at append
time, and the episode title. -/
structure LedgerEntry where
  guid : List Char
  ts : Int
  title : List Char

/-- Store content after a sequence of `DownloadedEpisodes::append` calls
starting from an absent or empty store (append-only writes). -/
def ledgerContent : List LedgerEntry → List Char
  | [] => []
  | e :: es => appendLine e.guid e.ts e.title ++ ledgerContent es

/-- The line body an append writes for one entry. -/
def entryBody (e : LedgerEntry) : List Char := lineBody e.guid e.ts e.title

/-- The association pair `load` rebuilds for one appended entry. -/
def entryPair (e : LedgerEntry) : List Char × Nat :=
  (e.guid, u64OfI64 e.ts)

/-- Wellformedness of one append: the id is nonempty and free of
whitespace, the title contains no newline, and the timestamp is a
representable `i64` (as `current_unix()` always is). -/
def entryOk (e : LedgerEntry) : Prop :=
  e.guid ≠ [] ∧ (∀ c ∈ e.guid, rustIsWs c = false) ∧ '\n' ∉ e.title ∧
    -(2 ^ 63) ≤ e.ts ∧ e.ts ≤ 2 ^ 63 - 1

instance (e : LedgerEntry) : Decidable (entryOk e) := by
  unfold entryOk
  infer_instance

/-! ## The selector (`Podcast::should_download`) -/

/-- An episode as `Podcast::should_download` sees it: dedup id (`guid`),
publish instant (`published`, seconds since epoch), and position `index`
in the feed's chronological order (0 = oldest). -/
structure Ep where
  guid : List Char
  published : Int
  index : Nat

/-- The resolved per-feed retention policy (`config::DownloadMode`).
`earliestDate` carries the already-parsed RFC 3339 timestamp (the parse
itself happens in an external collaborator, `chrono`). -/
inductive Mode
  | standard (maxDays : Option Int) (maxEpisodes : Option Int)
      (earliestDate : Option Int)
  | backlog (start : Int) (interval : Int)

/-- Rust `Option::is_some_and`. -/
def isSomeAnd (o : Option α) (p : α → Bool) : Bool :=
  match o with
  | none => false
  | some x => p x

/-- Release-mode `usize` subtraction `a - b`: wraps modulo `2^64`
(debug builds panic on underflow instead). -/
def wrapSubUsize (a b : Nat) : Nat :=
  ((a % 2 ^ 64) + 2 ^ 64 - (b % 2 ^ 64)) % 2 ^ 64

/-- `Podcast::should_download`: an episode already in the ledger is never
selected; otherwise Backlog keeps it iff
`days_passed / interval >= episode.index` with Rust truncating `i64`
division, and Standard drops it iff some configured bound rejects it.
`now` models `current_unix()`, `latest` the `latest_episode` argument
(the feed's episode count), `downloaded` the ids in the loaded ledger.
The `max_episodes` test performs the `usize` subtraction
`latest_episode - max_episodes as usize`, which wraps on underflow. -/
def shouldDownload (downloaded : List (List Char)) (mode : Mode) (now : Int)
    (latest : Nat) (ep : Ep) : Bool :=
  if downloaded.contains ep.guid then false
  else
    match mode with
    | .backlog start interval =>
      let daysPassed := Int.tdiv (now - start) 86400
      let currentBacklogIndex := Int.tdiv daysPassed interval
      (ep.index : Int) ≤ currentBacklogIndex
    | .standard maxDays maxEpisodes earliestDate =>
      if isSomeAnd maxDays fun md => md * 86400 < now - ep.published then
        false
      else if isSomeAnd maxEpisodes fun me =>
          ep.index < wrapSubUsize latest (u64OfI64 me) then
        false
      else if isSomeAnd earliestDate fun d => ep.published < d then
        false
      else true

/-- Follows the spec's words for the Standard selection rule (claim C1):
an episode not in the ledger is kept iff every configured bound passes,
with exact integer arithmetic: `now - published <= max_age_days * 86400`,
`total_count - max_episode_count <= episode.index`, and
`published >= earliest_date`; an absent bound always passes. -/
def specStandardKeep (now : Int) (latest : Nat) (maxDays maxEpisodes
    earliestDate : Option Int) (ep : Ep) : Bool :=
  (match maxDays with
   | none => true
   | some md => now - ep.published ≤ md * 86400) &&
  (match maxEpisodes with
   | none => true
   | some me => (latest : Int) - me ≤ (ep.index : Int)) &&
  (match earliestDate with
   | none => true
   | some d => d ≤ ep.published)

/-- Follows the spec's words for the Backlog selection rule (claim C2):
`days_passed = floor((now - start) / 86400)`,
`current_bucket = floor(days_passed / interval_days)` with floor division
rounding toward negative infinity, and an episode is kept iff
`episode.index <= current_bucket` and it is not already retrieved. -/
def specBacklogKeep (downloaded : List (List Char)) (start interval now : Int)
    (ep : Ep) : Bool :=
  !downloaded.contains ep.guid &&
    ((ep.index : Int) ≤ Int.fdiv (Int.fdiv (now - start) 86400) interval)

/-! ## Fetch ordering (`Podcast::sync`, lines 321-331) -/

/-- The sort key used by `episodes.sort_by_key(|ep| ep.index)`. -/
def epLe (a b : Ep) : Bool := a.index ≤ b.index

/-- The ordering step of `Podcast::sync`: Backlog sorts by ascending index;
Standard sorts by ascending index and then reverses (newest first). -/
def orderForDownload (mode : Mode) (eps : List Ep) : List Ep :=
  match mode with
  | .backlog _ _ => eps.mergeSort epLe
  | .standard _ _ _ => (eps.mergeSort epLe).reverse

/-- The selection-and-ordering pipeline of `Podcast::sync`: `episode_qty` is
taken before filtering, then episodes are filtered by `should_download` and
ordered by mode. -/
def selectAndOrder (downloaded : List (List Char)) (mode : Mode) (now : Int)
    (eps : List Ep) : List Ep :=
  orderForDownload mode
    (eps.filter (shouldDownload downloaded mode now eps.length))

/-! ## The transfer (`Episode::download`, main.rs lines 146-184)

The module tree of main.rs declares only `config`, `opml`, `tags` and
`utils`, so the `Episode::download` the sync loop calls is the one in
main.rs; the resumable variant in `src/episode.rs` is not compiled in. -/

/-- On-disk state at the destination before a transfer starts: whether a
file from an earlier interrupted attempt exists, and its length. The live
download never consults this state. -/
structure DiskState where
  fileExists : Bool
  fileLen : Nat

/-- The destination file name of the live download:
`self.title.replace(" ", "_") + "." + ext` — derived from the episode
title, not from the episode id. -/
def mainDownloadFileName (title ext : List Char) : List Char :=
  (title.map fun ch => if ch = ' ' then '_' else ch) ++ '.' :: ext

/-- The `Range` header of the live download's request: the request is
built as a plain `Client::new().get(url)` with no conditions, whatever is
on disk. -/
def mainDownloadRange (_st : DiskState) : Option Nat := none

/-- Whether the live download creates the destination file fresh:
`File::create(&path)` always truncates any existing file. -/
def mainDownloadCreatesFresh (_st : DiskState) : Bool := true

/-- The offset at which the live download starts writing the body: always
0 (the file was just created empty). -/
def mainDownloadWriteStart (_st : DiskState) : Nat := 0

/-- Follows the claim's words for C4: the stable in-progress file name
derived from the episode id that the spec's Transfer (and the unwired
`src/episode.rs` implementation) prescribe. -/
def specPartName (guid : List Char) : List Char := guid ++ str ".partial"

/-! ## The namer (`rename_file`, lines 454-528) -/

/-- Rust `str::split_once` with a single-character pattern: split at the
first occurrence, returning the text before and after it. -/
def splitOnceChar (sep : Char) (l : List Char) :
    Option (List Char × List Char) :=
  match l.dropWhile (fun c => c ≠ sep) with
  | [] => none
  | _ :: rest => some (l.takeWhile (fun c => c ≠ sep), rest)

/-- Rust `str::split_once` with a string pattern: split at the first
occurrence of the substring. -/
def splitOnceStr : List Char → List Char → Option (List Char × List Char)
  | sep, [] => if sep.isEmpty then some ([], []) else none
  | sep, c :: rest =>
    if sep.isPrefixOf (c :: rest) then some ([], (c :: rest).drop sep.length)
    else (splitOnceStr sep rest).map fun p => (c :: p.1, p.2)

/-- `id3::Tag::get(key).map(|f| f.content().to_string())`: the embedded tag
set is modelled as an association list from frame id to text content. -/
def lookupTag (frames : List (List Char × List Char)) (k : List Char) :
    Option (List Char) :=
  (frames.find? fun p => p.1 == k).map fun p => p.2

/-- The replacement computed by `rename_file` for one `{...}` span body.
External collaborators are parameters: `fmtDate` is `chrono`'s
`datetime.format(..)`, `epField` and `chField` are the structured-metadata
lookups (whose `unwrap` panics are modelled by `none`). The `id3` arm is
verbatim from the code: guard `starts_with("id3::")`, then
`split_once(":")` — a single colon — and a lookup of the remainder in the
tag set, with the sentinel on a missed lookup and empty text when no tag
set exists. -/
def replacementFor (fmtDate : List Char → List Char)
    (epField chField : List Char → Option (List Char))
    (tags : Option (List (List Char × List Char)))
    (key : List Char) : Option (List Char) :=
  if (str "pubdate::").isPrefixOf key then
    match splitOnceStr (str "::") key with
    | some (_, fmt) => some (fmtDate fmt)
    | none => none
  else if (str "id3::").isPrefixOf key then
    match splitOnceChar ':' key with
    | some (_, t) =>
      match tags with
      | some frames =>
        some (match lookupTag frames t with
              | some content => content
              | none => str "<<invalid id3 tag>>")
      | none => some []
    | none => none
  else if (str "rss::episode::").isPrefixOf key then
    match splitOnceStr (str "episode::") key with
    | some (_, k2) => epField k2
    | none => none
  else if (str "rss::channel::").isPrefixOf key then
    match splitOnceStr (str "channel::") key with
    | some (_, k2) => chField k2
    | none => none
  else some (str "<<unknown tag>>")

/-! ## Extension reapplication (`rename_file`, lines 517-527) -/

/-- Split a file name just before and after its last dot; `none` when it
contains no dot. -/
def lastDotSplit (name : List Char) : Option (List Char × List Char) :=
  let afterRev := name.reverse.takeWhile (fun c => c ≠ '.')
  if afterRev.length = name.length then none
  else some (name.take (name.length - afterRev.length - 1), afterRev.reverse)

/-- Rust `Path::extension` at the file-name level: the part after the last
dot, unless there is no dot, the only dot is the leading character (hidden
files have no extension), or the name is `".."`. -/
def rustFileExtension (name : List Char) : Option (List Char) :=
  if name = str ".." then none
  else
    match lastDotSplit name with
    | none => none
    | some (stem, ext) => if stem.isEmpty then none else some ext

/-- Rust `Path::file_stem` at the file-name level: `none` when the path has
no file-name component (it is empty or terminates in `".."`); otherwise the
part before the last dot, unless that would be empty (leading-dot-only
names are their own stem). -/
def rustFileStem (name : List Char) : Option (List Char) :=
  if name.isEmpty || name = str ".." then none
  else
    match lastDotSplit name with
    | none => some name
    | some (stem, _) => if stem.isEmpty then some name else some stem

/-- Rust `Path::set_extension` at the file-name level: when there is no
file-name component (`file_stem` is `none`) it returns `false` and leaves
the path unchanged; otherwise it keeps the stem and appends a dot and the
new extension (just the stem when the new extension is empty). -/
def rustSetExtension (name ext : List Char) : List Char :=
  match rustFileStem name with
  | none => name
  | some stem => if ext.isEmpty then stem else stem ++ '.' :: ext

/-- The final file name produced by `rename_file`: when the original file
name has an extension, `set_extension` reapplies it to the rendered name;
otherwise the rendered name is used verbatim. -/
def renamedFileName (orig rendered : List Char) : List Char :=
  match rustFileExtension orig with
  | some ext => rustSetExtension rendered ext
  | none => rendered

/-- Follows the claim's words for C10: the characters after the last dot of
the rendered name are replaced by the original extension (appending when the
rendered name has no dot). -/
def specReplaceAfterLastDot (rendered ext : List Char) : List Char :=
  match lastDotSplit rendered with
  | some (stem2, _) => stem2 ++ '.' :: ext
  | none => rendered ++ '.' :: ext

/-! ## The per-feed orchestration loop (`Podcast::sync`, lines 340-384) -/

/-- Outcome oracle for one run of the per-feed loop: for each episode,
whether its download succeeds, whether the ledger append succeeds, whether
the artifact is an mp3 (so tags are written), whether tag writing succeeds,
whether the rename succeeds (failure is an unwrap panic), whether a
download hook is configured, and whether the hook invocation succeeds. -/
structure SyncEnv where
  dlOk : Nat → Bool
  appOk : Nat → Bool
  isMp3 : Nat → Bool
  tagOk : Nat → Bool
  renOk : Nat → Bool
  hookCfg : Bool
  hookOk : Nat → Bool

/-- Observable events of the per-feed loop, tagged with the episode. -/
inductive SyncEv where
  | dl (e : Nat) (ok : Bool)
  | app (e : Nat) (ok : Bool)
  | tagw (e : Nat) (ok : Bool)
  | ren (e : Nat)
  | hook (e : Nat) (ok : Bool)
deriving DecidableEq

/-- Events from the rename step onward: a successful `rename_file` emits the
rename, then the hook runs iff `download_hook` is configured; a rename
panic ends the run with no further events. -/
def renTrace (env : SyncEnv) (e : Nat) : List SyncEv :=
  if env.renOk e then
    .ren e :: (if env.hookCfg then [.hook e (env.hookOk e)] else [])
  else []

/-- The events one loop iteration emits for episode `e`, in program order:
`episode.download(..)?`, then `mark_downloaded(..)?`, then (for mp3 files)
`set_mp3_tags(..)?`, then `rename_file`, then the optional hook. A failed
step ends the iteration. -/
def epTrace (env : SyncEnv) (e : Nat) : List SyncEv :=
  if env.dlOk e then
    .dl e true ::
      (if env.appOk e then
        .app e true ::
          (if env.isMp3 e then
            (if env.tagOk e then .tagw e true :: renTrace env e
             else [.tagw e false])
           else renTrace env e)
       else [.app e false])
  else [.dl e false]

/-- Whether the loop continues past episode `e` (`?` aborts the feed's run
on the first error; a rename panic also ends it). -/
def epOk (env : SyncEnv) (e : Nat) : Bool :=
  env.dlOk e && env.appOk e && (!env.isMp3 e || env.tagOk e) &&
    env.renOk e && (!env.hookCfg || env.hookOk e)

/-- The full event trace of `Podcast::sync` over the ordered selected
episodes: iterations run strictly sequentially and the first failure
aborts the remainder of the feed's run. -/
def syncTrace (env : SyncEnv) : List Nat → List SyncEv
  | [] => []
  | e :: rest => epTrace env e ++ (if epOk env e then syncTrace env rest else [])

/-- The episode an event belongs to. -/
def evEp : SyncEv → Nat
  | .dl e _ => e
  | .app e _ => e
  | .tagw e _ => e
  | .ren e => e
  | .hook e _ => e

/-- Recognizer for hook events of episode `e`. -/
def isHookFor (e : Nat) : SyncEv → Bool
  | .hook e' _ => e' == e
  | _ => false

end TaleCast

namespace TaleCast

/-! ## Arithmetic helper lemmas for truncating division -/

/-- For a positive divisor and a threshold of at least one, truncating
division compares like exact division. -/
theorem le_tdiv_iff_mul_le {a k c : Int} (hk : 0 < k) (hc : 1 ≤ c) :
    c ≤ Int.tdiv a k ↔ c * k ≤ a := by
  rcases le_or_lt 0 a with ha | ha
  · rw [Int.tdiv_eq_ediv ha hk.le, Int.le_ediv_iff_mul_le hk]
  · have hrw : Int.tdiv a k = -Int.tdiv (-a) k := by
      rw [← Int.neg_tdiv, neg_neg]
    have h1 : 0 ≤ Int.tdiv (-a) k := Int.tdiv_nonneg (by omega) hk.le
    have h2 : 0 < c * k := mul_pos (by omega) hk
    constructor <;> intro <;> omega

/-- Truncating division by a positive divisor is nonnegative exactly when the
dividend exceeds the negated divisor. -/
theorem tdiv_nonneg_iff_neg_lt {q k : Int} (hk : 0 < k) :
    0 ≤ Int.tdiv q k ↔ -k < q := by
  rcases le_or_lt 0 q with hq | hq
  · have := Int.tdiv_nonneg hq hk.le
    constructor <;> intro <;> omega
  · have hrw : Int.tdiv q k = -Int.tdiv (-q) k := by
      rw [← Int.neg_tdiv, neg_neg]
    have h1 : 0 ≤ Int.tdiv (-q) k := Int.tdiv_nonneg (by omega) hk.le
    have h2 := le_tdiv_iff_mul_le (a := -q) (c := 1) hk le_rfl
    rw [one_mul] at h2
    omega

/-- Strict lower bound through truncating division by a positive divisor. -/
theorem neg_lt_tdiv_iff {a m k : Int} (hm : 0 < m) (hk : 0 < k) :
    -k < Int.tdiv a m ↔ -(k * m) < a := by
  rcases le_or_lt 0 a with ha | ha
  · have h1 : 0 ≤ Int.tdiv a m := Int.tdiv_nonneg ha hm.le
    have h2 : 0 < k * m := mul_pos hk hm
    constructor <;> intro <;> omega
  · have hrw : Int.tdiv a m = -Int.tdiv (-a) m := by
      rw [← Int.neg_tdiv, neg_neg]
    have h1 : 0 ≤ Int.tdiv (-a) m := Int.tdiv_nonneg (by omega) hm.le
    have h2 := le_tdiv_iff_mul_le (a := -a) (c := k) hm hk
    omega

end TaleCast


namespace TaleCast

/-! ## Claim C1 -/

/-- C1: with a Standard policy whose only configured bound is
`max_episode_count = 5`, a feed of `total_count = 3` episodes, and the
newest episode (index 2) not in the ledger, the spec formula
`total_count - max_episode_count <= episode.index` keeps the episode,
but `should_download` computes the `usize` subtraction `3 - 5`, which
wraps to `2^64 - 2` in release builds (and panics in debug builds), so
the episode is dropped: the claimed biconditional fails for
`max_episode_count` larger than `total_count`. -/
theorem shouldDownload_maxcount_underflow :
    shouldDownload [] (.standard none (some 5) none) 1000 3
      ⟨str "g", 10, 2⟩ = false ∧
    specStandardKeep 1000 3 none (some 5) none ⟨str "g", 10, 2⟩ = true ∧
    wrapSubUsize 3 (u64OfI64 5) = 2 ^ 64 - 2 := by
  refine ⟨by decide, by decide, by decide⟩

end TaleCast


namespace TaleCast

/-! ## Claim C2 -/

/-- C2 counterexample: with `start = 604800`, `interval_days = 7`, an empty
ledger and `now = start - 1`, the code keeps episode index 0 (Rust `i64`
division truncates toward zero, so `days_passed = 0` and the bucket is 0),
while the claimed floor-division rule (`current_bucket = -1`) rejects it:
index 0 is eligible before `now >= start`. -/
theorem shouldDownload_backlog_floor_cex :
    shouldDownload [] (.backlog 604800 7) 604799 5 ⟨str "g", 0, 0⟩ = true ∧
    specBacklogKeep [] 604800 7 604799 ⟨str "g", 0, 0⟩ = false := by
  refine ⟨by decide, by decide⟩

/-- C2 (amended): for a Backlog policy with positive `interval_days`, an
episode is kept iff it is not in the ledger and
`episode.index <= (now - start) tdiv 86400 tdiv interval_days` with Rust
truncating (toward zero) division; consequently index 0 is eligible exactly
when `now > start - interval_days * 86400` (in particular at every
`now >= start`), and index 1 exactly when `now >= start + interval_days *
86400`. -/
theorem shouldDownload_backlog_trunc (downloaded : List (List Char))
    (start interval now : Int) (latest : Nat) (ep : Ep)
    (hpos : 0 < interval) :
    (shouldDownload downloaded (.backlog start interval) now latest ep = true ↔
      (downloaded.contains ep.guid = false ∧
        (ep.index : Int) ≤ Int.tdiv (Int.tdiv (now - start) 86400) interval)) ∧
    (ep.index = 0 →
      (shouldDownload downloaded (.backlog start interval) now latest ep
          = true ↔
        (downloaded.contains ep.guid = false ∧
          -(interval * 86400) < now - start))) ∧
    (ep.index = 1 →
      (shouldDownload downloaded (.backlog start interval) now latest ep
          = true ↔
        (downloaded.contains ep.guid = false ∧
          interval * 86400 ≤ now - start))) := by
  have base : shouldDownload downloaded (.backlog start interval) now latest ep
      = true ↔
      (downloaded.contains ep.guid = false ∧
        (ep.index : Int) ≤ Int.tdiv (Int.tdiv (now - start) 86400) interval) := by
    cases h : downloaded.contains ep.guid
    · have hm : ep.guid ∉ downloaded := by simpa using h
      simp [shouldDownload, h]
      exact fun _ => hm
    · have hm : ep.guid ∈ downloaded := by simpa using h
      simp [shouldDownload, h]
      exact fun hn => absurd hm hn
  refine ⟨base, fun h0 => ?_, fun h1 => ?_⟩
  · rw [base, h0]
    have ha := tdiv_nonneg_iff_neg_lt
      (q := Int.tdiv (now - start) 86400) hpos
    have hb := neg_lt_tdiv_iff (a := now - start) (m := (86400 : Int))
      (k := interval) (by norm_num) hpos
    constructor <;> rintro ⟨hc, hd⟩ <;> exact ⟨hc, by push_cast at *; omega⟩
  · rw [base, h1]
    have ha := le_tdiv_iff_mul_le
      (a := Int.tdiv (now - start) 86400) (k := interval) (c := 1) hpos le_rfl
    rw [one_mul] at ha
    have hb := le_tdiv_iff_mul_le (a := now - start) (k := (86400 : Int))
      (c := interval) (by norm_num) hpos
    constructor <;> rintro ⟨hc, hd⟩ <;> exact ⟨hc, by push_cast at *; omega⟩

/-- C2 witness: the amended characterization applied at `start = 0`,
`interval = 7`, `now = 86400`, episode index 1, empty ledger. -/
theorem shouldDownload_backlog_trunc_witness :
    (0 : Int) < 7 ∧
    ((shouldDownload [] (.backlog 0 7) 86400 5 ⟨str "g", 0, 1⟩ = true ↔
        (([] : List (List Char)).contains (str "g") = false ∧
          (((⟨str "g", 0, 1⟩ : Ep).index : Nat) : Int) ≤
            Int.tdiv (Int.tdiv ((86400 : Int) - 0) 86400) 7)) ∧
      ((⟨str "g", 0, 1⟩ : Ep).index = 0 →
        (shouldDownload [] (.backlog 0 7) 86400 5 ⟨str "g", 0, 1⟩ = true ↔
          (([] : List (List Char)).contains (str "g") = false ∧
            -((7 : Int) * 86400) < 86400 - 0))) ∧
      ((⟨str "g", 0, 1⟩ : Ep).index = 1 →
        (shouldDownload [] (.backlog 0 7) 86400 5 ⟨str "g", 0, 1⟩ = true ↔
          (([] : List (List Char)).contains (str "g") = false ∧
            (7 : Int) * 86400 ≤ 86400 - 0)))) :=
  ⟨by decide, shouldDownload_backlog_trunc [] 0 7 86400 5 ⟨str "g", 0, 1⟩
    (by decide)⟩

end TaleCast


namespace TaleCast

/-! ## Claim C3 -/

/-- Merge-sorting by `epLe` yields a strictly increasing index sequence when
the input indices are pairwise distinct. -/
theorem mergeSort_epLe_strict (l : List Ep)
    (h : (l.map Ep.index).Nodup) :
    (l.mergeSort epLe).Pairwise fun a b => a.index < b.index := by
  have hs := @List.sorted_mergeSort Ep epLe
    (fun a b c hab hbc => by
      simp only [epLe, decide_eq_true_eq] at *
      omega)
    (fun a b => by
      simp only [epLe, Bool.or_eq_true, decide_eq_true_eq]
      omega)
    l
  have hperm : (l.mergeSort epLe).Perm l := List.mergeSort_perm l epLe
  have hnd : ((l.mergeSort epLe).map Ep.index).Nodup :=
    ((hperm.map Ep.index).nodup_iff).mpr h
  have hne : (l.mergeSort epLe).Pairwise fun a b => a.index ≠ b.index :=
    List.pairwise_map.mp hnd
  exact (hs.and hne).imp fun hab => by
    have h1 := hab.1
    simp only [epLe, decide_eq_true_eq] at h1
    omega

/-- C3: over any episode list with pairwise-distinct indices (as produced by
`enumerate` in `load_episodes`), the fetch order computed by `Podcast::sync`
is strictly descending by index under a Standard policy and strictly
ascending by index under a Backlog policy. -/
theorem selectAndOrder_strict (downloaded : List (List Char)) (mode : Mode)
    (now : Int) (eps : List Ep)
    (hnd : (eps.map Ep.index).Nodup) :
    (∀ md me ed, mode = .standard md me ed →
      (selectAndOrder downloaded mode now eps).Pairwise
        fun a b => b.index < a.index) ∧
    (∀ s i, mode = .backlog s i →
      (selectAndOrder downloaded mode now eps).Pairwise
        fun a b => a.index < b.index) := by
  have hsub :
      (eps.filter (shouldDownload downloaded mode now eps.length)).Sublist
        eps := List.filter_sublist eps
  have hnd2 :
      ((eps.filter (shouldDownload downloaded mode now eps.length)).map
        Ep.index).Nodup :=
    List.Nodup.sublist (hsub.map Ep.index) hnd
  have hstrict := mergeSort_epLe_strict _ hnd2
  constructor
  · rintro md me ed rfl
    simpa [selectAndOrder, orderForDownload, List.pairwise_reverse]
      using hstrict
  · rintro s i rfl
    simpa [selectAndOrder, orderForDownload] using hstrict

/-- C3 witness: a three-episode feed under a Standard policy with
`max_episode_count = 2` (also checking the Backlog branch is vacuous for a
Standard mode). -/
theorem selectAndOrder_strict_witness :
    ([⟨str "a", 0, 0⟩, ⟨str "b", 1, 1⟩, ⟨str "c", 2, 2⟩].map
        Ep.index).Nodup ∧
    ((∀ md me ed,
        (Mode.standard none (some 2) none) = .standard md me ed →
        (selectAndOrder [] (.standard none (some 2) none) 100
          [⟨str "a", 0, 0⟩, ⟨str "b", 1, 1⟩, ⟨str "c", 2, 2⟩]).Pairwise
          fun a b => b.index < a.index) ∧
      (∀ s i, (Mode.standard none (some 2) none) = .backlog s i →
        (selectAndOrder [] (.standard none (some 2) none) 100
          [⟨str "a", 0, 0⟩, ⟨str "b", 1, 1⟩, ⟨str "c", 2, 2⟩]).Pairwise
          fun a b => a.index < b.index)) :=
  ⟨by decide,
    selectAndOrder_strict [] (.standard none (some 2) none) 100
      [⟨str "a", 0, 0⟩, ⟨str "b", 1, 1⟩, ⟨str "c", 2, 2⟩] (by decide)⟩

end TaleCast


namespace TaleCast

/-! ## Claim C4 -/

/-- C4: the transfer the program actually runs is the `Episode::download`
in main.rs (main.rs declares no `mod episode`, so the resumable variant in
`src/episode.rs` is dead code): for every on-disk state it sends no
`Range` header, creates the destination fresh — truncating any previous
partial download — and writes from offset 0, and the destination is named
from the title, not the episode id: for id `g`, title `My Ep`, mp3
content, the file is `My_Ep.mp3`, not the claimed stable id-derived resume
target `g.partial`. The spec's resumable Transfer (implemented verbatim in
the unwired `src/episode.rs`) is clearly the intent; the compiled path
lacks it. -/
theorem episode_download_no_resume :
    (∀ st : DiskState, mainDownloadRange st = none ∧
      mainDownloadCreatesFresh st = true ∧
      mainDownloadWriteStart st = 0) ∧
    mainDownloadFileName (str "My Ep") (str "mp3") = str "My_Ep.mp3" ∧
    mainDownloadFileName (str "My Ep") (str "mp3") ≠
      specPartName (str "g") := by
  refine ⟨fun st => ⟨rfl, rfl, rfl⟩, by decide, by decide⟩

/-! ## Claim C7 -/

/-- C7: the `id3` arm of `rename_file` splits the span body on the first
single colon (`split_once(":")`), not on `"::"`, so for the span body
`id3::TIT2` it looks up `":TIT2"` in the tag set; with a tag set that does
contain the frame `TIT2` (content `Song`) the code therefore emits the
sentinel `<<invalid id3 tag>>` instead of the frame content, contradicting
the claim; the no-tag-set case does emit empty text as claimed. -/
theorem rename_id3_lookup_eval :
    replacementFor (fun f => f) (fun _ => none) (fun _ => none)
      (some [(str "TIT2", str "Song")]) (str "id3::TIT2")
      = some (str "<<invalid id3 tag>>") ∧
    lookupTag [(str "TIT2", str "Song")] (str "TIT2") = some (str "Song") ∧
    splitOnceChar ':' (str "id3::TIT2") = some (str "id3", str ":TIT2") ∧
    replacementFor (fun f => f) (fun _ => none) (fun _ => none) none
      (str "id3::TIT2") = some [] := by
  refine ⟨by decide, by decide, by decide, by decide⟩

/-! ## Claim C10 -/

/-- C10 counterexample: with original name `x.mp3` and rendered name
`.hidden` (its only dot is the leading character), Rust file-stem semantics
treat `.hidden` as having no extension, so the code appends and produces
`.hidden.mp3`, while the claimed replace-after-last-dot rule would produce
`.mp3`. -/
theorem rename_extension_hidden_cex :
    renamedFileName (str "x.mp3") (str ".hidden") = str ".hidden.mp3" ∧
    specReplaceAfterLastDot (str ".hidden") (str "mp3") = str ".mp3" ∧
    str ".hidden.mp3" ≠ str ".mp3" := by
  refine ⟨by decide, by decide, by decide⟩

/-- C10 (amended): when the original name has an extension the final name
is `set_extension` applied to the rendered name. For a rendered name that
is a proper file-name component: if it has a dot at a position other than
the start, everything after its last dot is dropped and the original
extension is appended in its place (the tail is lost); if it has no dot,
or only a leading dot, the original extension is appended without loss.
A rendered name that is empty or `".."` leaves no file-name component, so
`set_extension` is a no-op and the path is unchanged (the subsequent
`fs::rename` unwrap then panics on the directory target). When the
original name has no extension the rendered name is used verbatim. The
model is at the file-name-component level, so the single-component
hypotheses (`"."` and path separators excluded) scope the per-case
clauses. -/
theorem rename_extension_semantics (orig rendered : List Char) :
    (∀ ext, rustFileExtension orig = some ext →
      renamedFileName orig rendered = rustSetExtension rendered ext ∧
      (∀ stem tail, lastDotSplit rendered = some (stem, tail) →
        stem ≠ [] → rendered ≠ str ".." →
        renamedFileName orig rendered =
          (if ext.isEmpty then stem else stem ++ '.' :: ext)) ∧
      (rendered ≠ [] → rendered ≠ str "." → rendered ≠ str ".." →
        (lastDotSplit rendered = none ∨
          (∃ tail, lastDotSplit rendered = some ([], tail))) →
        renamedFileName orig rendered =
          (if ext.isEmpty then rendered else rendered ++ '.' :: ext)) ∧
      ((rendered = [] ∨ rendered = str "..") →
        renamedFileName orig rendered = rendered)) ∧
    (rustFileExtension orig = none →
      renamedFileName orig rendered = rendered) := by
  constructor
  · intro ext hx
    refine ⟨by simp [renamedFileName, hx], ?_, ?_, ?_⟩
    · intro stem tail hsp hne hdd
      have hne2 : stem.isEmpty = false := by
        cases stem with
        | nil => exact absurd rfl hne
        | cons c cs => rfl
      have hren2 : rendered.isEmpty = false := by
        cases rendered with
        | nil => simp [lastDotSplit] at hsp
        | cons c cs => rfl
      simp [renamedFileName, hx, rustSetExtension, rustFileStem, hren2,
        hdd, hsp, hne2]
    · intro hren hdot hdd hcase
      have hren2 : rendered.isEmpty = false := by
        cases rendered with
        | nil => exact absurd rfl hren
        | cons c cs => rfl
      rcases hcase with h | ⟨tail, h⟩ <;>
        simp [renamedFileName, hx, rustSetExtension, rustFileStem, hren2,
          hdd, h]
    · intro hcase
      rcases hcase with h | h <;> rw [h]
      · have hs : rustFileStem ([] : List Char) = none := rfl
        simp [renamedFileName, hx, rustSetExtension, hs]
      · have hs : rustFileStem (str "..") = none := by decide
        simp [renamedFileName, hx, rustSetExtension, hs]
  · intro hx
    simp [renamedFileName, hx]

/-- C10 witness: original `x.mp3` with rendered `song.flac` (tail `flac`
lost), rendered `".."` (no file-name component, path unchanged), and an
extensionless original `nodot` keeping the rendered name. -/
theorem rename_extension_semantics_witness :
    rustFileExtension (str "x.mp3") = some (str "mp3") ∧
    lastDotSplit (str "song.flac") = some (str "song", str "flac") ∧
    renamedFileName (str "x.mp3") (str "song.flac") = str "song.mp3" ∧
    renamedFileName (str "x.mp3") (str "..") = str ".." ∧
    renamedFileName (str "nodot") (str "song.flac") = str "song.flac" := by
  have h := rename_extension_semantics (str "x.mp3") (str "song.flac")
  have hdd := rename_extension_semantics (str "x.mp3") (str "..")
  have h2 := rename_extension_semantics (str "nodot") (str "song.flac")
  refine ⟨by decide, by decide, ?_,
    (hdd.1 (str "mp3") (by decide)).2.2.2 (Or.inr rfl), h2.2 (by decide)⟩
  have h3 := (h.1 (str "mp3") (by decide)).2.1 (str "song") (str "flac")
    (by decide) (by decide) (by decide)
  rw [h3]
  decide

end TaleCast


namespace TaleCast

/-! ## Decimal round-trip lemmas -/

/-- Value of a digit character produced by `digitChar`. -/
theorem digitChar_toNat {n : Nat} (h : n < 10) : (digitChar n).toNat = 48 + n := by
  interval_cases n <;> decide

/-- Characters produced by `digitChar` are ASCII digits. -/
theorem isDigitChar_digitChar (n : Nat) : isDigitChar (digitChar n) = true := by
  unfold digitChar
  split <;> decide

/-- The fuelled digit expansion is independent of the fuel once sufficient. -/
theorem natDigitsAux_eq (n : Nat) : ∀ f, n < f → natDigitsAux f n = natDigits n := by
  induction n using Nat.strong_induction_on with
  | _ n ih =>
    intro f hf
    match f, hf with
    | f' + 1, _ =>
      by_cases h10 : n < 10
      · simp [natDigitsAux, natDigits, h10]
      · have hd : n / 10 < n := Nat.div_lt_self (by omega) (by omega)
        have e1 : natDigitsAux (f' + 1) n
            = natDigitsAux f' (n / 10) ++ [digitChar (n % 10)] := by
          simp [natDigitsAux, h10]
        have e2 : natDigits n
            = natDigitsAux n (n / 10) ++ [digitChar (n % 10)] := by
          simp [natDigits, natDigitsAux, h10]
        rw [e1, e2, ih (n / 10) hd f' (by omega), ih (n / 10) hd n (by omega)]

/-- Unfolding step of `natDigits` for multi-digit numbers. -/
theorem natDigits_step {n : Nat} (h : ¬ n < 10) :
    natDigits n = natDigits (n / 10) ++ [digitChar (n % 10)] := by
  calc natDigits n = natDigitsAux n (n / 10) ++ [digitChar (n % 10)] := by
        simp [natDigits, natDigitsAux, h]
    _ = natDigits (n / 10) ++ [digitChar (n % 10)] := by
        rw [natDigitsAux_eq (n / 10) n (Nat.div_lt_self (by omega) (by omega))]

/-- A decimal representation is never empty. -/
theorem natDigits_ne_nil (n : Nat) : natDigits n ≠ [] := by
  by_cases h : n < 10
  · simp [natDigits, natDigitsAux, h]
  · rw [natDigits_step h]; simp

/-- Every character of a decimal representation is an ASCII digit. -/
theorem mem_natDigits_digit (n : Nat) : ∀ c ∈ natDigits n, isDigitChar c = true := by
  induction n using Nat.strong_induction_on with
  | _ n ih =>
    intro c hc
    by_cases h10 : n < 10
    · simp [natDigits, natDigitsAux, h10] at hc
      subst hc; exact isDigitChar_digitChar n
    · rw [natDigits_step h10] at hc
      rcases List.mem_append.mp hc with h | h
      · exact ih (n / 10) (Nat.div_lt_self (by omega) (by omega)) c h
      · simp at h; subst h; exact isDigitChar_digitChar _

/-- ASCII digits are not Rust whitespace. -/
theorem rustIsWs_of_digit {c : Char} (h : isDigitChar c = true) :
    rustIsWs c = false := by
  have h2 : 48 ≤ c.toNat ∧ c.toNat ≤ 57 := by simpa [isDigitChar] using h
  simp [rustIsWs]
  omega

/-- Characters of a decimal representation are not whitespace. -/
theorem natDigits_no_ws {n : Nat} {c : Char} (h : c ∈ natDigits n) :
    rustIsWs c = false :=
  rustIsWs_of_digit (mem_natDigits_digit n c h)

/-- A signed decimal representation is never empty. -/
theorem intRepr_ne_nil (t : Int) : intRepr t ≠ [] := by
  unfold intRepr
  split
  · simp
  · exact natDigits_ne_nil _

/-- Characters of a signed decimal representation are not whitespace. -/
theorem intRepr_no_ws {t : Int} {c : Char} (h : c ∈ intRepr t) :
    rustIsWs c = false := by
  unfold intRepr at h
  split at h
  · rcases List.mem_cons.mp h with h | h
    · subst h; decide
    · exact natDigits_no_ws h
  · exact natDigits_no_ws h

/-- The accumulating parser distributes over append. -/
theorem parseDigitsAux_append (acc : Nat) (l1 l2 : List Char) :
    parseDigitsAux acc (l1 ++ l2) =
      (parseDigitsAux acc l1).bind fun a => parseDigitsAux a l2 := by
  induction l1 generalizing acc with
  | nil => simp [parseDigitsAux]
  | cons c cs ih =>
    by_cases h : isDigitChar c <;> simp [parseDigitsAux, h, ih]

/-- Parsing the decimal representation from any accumulator. -/
theorem parseDigitsAux_natDigits (n : Nat) :
    ∀ acc, parseDigitsAux acc (natDigits n) =
      some (acc * 10 ^ (natDigits n).length + n) := by
  induction n using Nat.strong_induction_on with
  | _ n ih =>
    intro acc
    by_cases h10 : n < 10
    · have he : natDigits n = [digitChar n] := by
        simp [natDigits, natDigitsAux, h10]
      rw [he]
      simp [parseDigitsAux, isDigitChar_digitChar, digitChar_toNat h10]
    · rw [natDigits_step h10, parseDigitsAux_append,
        ih (n / 10) (Nat.div_lt_self (by omega) (by omega)) acc]
      have hm : n % 10 < 10 := by omega
      simp [parseDigitsAux, isDigitChar_digitChar, digitChar_toNat hm,
        pow_succ]
      have hdm := Nat.div_add_mod n 10
      ring_nf
      omega

/-- Round trip: parsing the decimal representation of `n` yields `n`. -/
theorem parseDigits_natDigits (n : Nat) : parseDigits? (natDigits n) = some n := by
  obtain ⟨c, cs, he⟩ := List.exists_cons_of_ne_nil (natDigits_ne_nil n)
  have hp := parseDigitsAux_natDigits n 0
  rw [he] at hp ⊢
  show parseDigitsAux 0 (c :: cs) = some n
  rw [hp]
  simp

end TaleCast


namespace TaleCast

/-- Round trip: `str::parse::<i64>` recovers any `i64` value from its
decimal representation. -/
theorem parseI64_intRepr {t : Int} (h1 : -(2 ^ 63) ≤ t) (h2 : t ≤ 2 ^ 63 - 1) :
    parseI64? (intRepr t) = some t := by
  by_cases ht : t < 0
  · have he : intRepr t = '-' :: natDigits (-t).toNat := by simp [intRepr, ht]
    rw [he]
    show (parseDigits? (natDigits (-t).toNat)).bind _ = some t
    rw [parseDigits_natDigits]
    have hb : ((-t).toNat : Int) = -t := Int.toNat_of_nonneg (by omega)
    have hle : (-t).toNat ≤ 2 ^ 63 := by omega
    simp [hle]
    omega
  · have he : intRepr t = natDigits t.toNat := by simp [intRepr, ht]
    obtain ⟨c, cs, hcc⟩ := List.exists_cons_of_ne_nil (natDigits_ne_nil t.toNat)
    have hcd : isDigitChar c = true :=
      mem_natDigits_digit _ c (by rw [hcc]; simp)
    have hcp : c ≠ '+' := by
      intro h
      rw [h] at hcd
      exact absurd hcd (by decide)
    have hcm : c ≠ '-' := by
      intro h
      rw [h] at hcd
      exact absurd hcd (by decide)
    rw [he, hcc]
    have hgoal : parseI64? (c :: cs) =
        (parseDigits? (c :: cs)).bind fun n =>
          if n ≤ 2 ^ 63 - 1 then some (n : Int) else none := by
      unfold parseI64?
      split
      · next heq =>
          injection heq with hx1 hx2
          exact absurd hx1 hcp
      · next heq =>
          injection heq with hx1 hx2
          exact absurd hx1 hcm
      · rfl
    rw [hgoal, ← hcc, parseDigits_natDigits]
    have hle : t.toNat ≤ 2 ^ 63 - 1 := by omega
    simp [hle]
    omega

end TaleCast


namespace TaleCast

/-! ## Tokenizer and line-splitting lemmas -/

/-- Scanning past a whitespace-free prefix accumulates it. -/
theorem wsTokensAux_nonws_run (t : List Char)
    (hft : ∀ c ∈ t, rustIsWs c = false) :
    ∀ acc l, wsTokensAux acc (t ++ l) = wsTokensAux (t.reverse ++ acc) l := by
  induction t with
  | nil => intro acc l; simp
  | cons c cs ih =>
    intro acc l
    have hc : rustIsWs c = false := hft c (by simp)
    have hcs : ∀ x ∈ cs, rustIsWs x = false := fun x hx => hft x (by simp [hx])
    simp [wsTokensAux, hc, ih hcs]

/-- A whitespace-free nonempty token followed by a space is split off. -/
theorem wsTokens_token_cons (t rest : List Char) (hne : t ≠ [])
    (hft : ∀ c ∈ t, rustIsWs c = false) :
    wsTokens (t ++ ' ' :: rest) = t :: wsTokens rest := by
  unfold wsTokens
  rw [wsTokensAux_nonws_run t hft [] (' ' :: rest)]
  have hie : t.reverse.isEmpty = false := by
    cases t with
    | nil => exact absurd rfl hne
    | cons a as => simp
  simp [wsTokensAux, show rustIsWs ' ' = true from by decide, hie]

/-- A trailing whitespace character does not change the token list. -/
theorem wsTokensAux_append_ws {w : Char} (hw : rustIsWs w = true) :
    ∀ l acc, wsTokensAux acc (l ++ [w]) = wsTokensAux acc l := by
  intro l
  induction l with
  | nil =>
    intro acc
    cases h : acc.isEmpty <;> simp [wsTokensAux, hw, h]
  | cons c cs ih =>
    intro acc
    by_cases hc : rustIsWs c
    · cases h : acc.isEmpty <;> simp [wsTokensAux, hc, h, ih]
    · simp [wsTokensAux, hc, ih]

/-- Stripping a trailing carriage return does not change the token list. -/
theorem wsTokens_stripCR (l : List Char) : wsTokens (stripCR l) = wsTokens l := by
  by_cases h : l.getLast? = some '\r'
  · have hne : l ≠ [] := by
      intro h0
      rw [h0] at h
      simp at h
    have hg : l.dropLast ++ ['\r'] = l := by
      have h2 : l.getLast hne = '\r' := by
        have h3 := List.getLast?_eq_getLast l hne
        rw [h3] at h
        exact Option.some.inj h
      rw [← h2]
      exact List.dropLast_append_getLast hne
    have hs : stripCR l = l.dropLast := by simp [stripCR, h]
    rw [hs]
    conv_rhs => rw [← hg]
    unfold wsTokens
    exact (wsTokensAux_append_ws (by decide) l.dropLast []).symm
  · simp [stripCR, h]

/-- `processLine` only looks at the token list, so the carriage-return strip
is immaterial. -/
theorem processLine_stripCR (m : List (List Char × Nat)) (b : List Char) :
    processLine m (stripCR b) = processLine m b := by
  unfold processLine
  rw [wsTokens_stripCR]

/-- Processing the carriage-return-stripped lines equals processing the raw
line bodies. -/
theorem processLines_map_stripCR (bs : List (List Char)) :
    ∀ m, processLines m (bs.map stripCR) = processLines m bs := by
  induction bs with
  | nil => intro m; rfl
  | cons b bs ih =>
    intro m
    simp only [List.map_cons]
    unfold processLines
    rw [processLine_stripCR]
    cases processLine m b with
    | none => rfl
    | some m2 => exact ih m2

/-- A newline-free string is a single field of the newline split. -/
theorem splitNl_no_nl {b : List Char} (hb : '\n' ∉ b) : splitNl b = [b] := by
  induction b with
  | nil => rfl
  | cons c cs ih =>
    have hc : c ≠ '\n' := by
      intro h
      exact hb (by simp [h])
    have hcs : '\n' ∉ cs := fun h => hb (by simp [h])
    simp [splitNl, hc, ih hcs]

/-- Peeling one newline-free field off the newline split. -/
theorem splitNl_append {b : List Char} (rest : List Char) (hb : '\n' ∉ b) :
    splitNl (b ++ '\n' :: rest) = b :: splitNl rest := by
  induction b with
  | nil => simp [splitNl]
  | cons c cs ih =>
    have hc : c ≠ '\n' := by
      intro h
      exact hb (by simp [h])
    have hcs : '\n' ∉ cs := fun h => hb (by simp [h])
    simp [splitNl, hc, ih hcs]

/-- A nonempty sequence of newline-terminated lines is the newline join plus
one final newline. -/
theorem bodiesContent_eq (bodies : List (List Char)) (h : bodies ≠ []) :
    bodiesContent bodies = joinNl bodies ++ ['\n'] := by
  induction bodies with
  | nil => exact absurd rfl h
  | cons b bs ih =>
    cases bs with
    | nil => simp [bodiesContent, joinNl]
    | cons b2 bs2 =>
      have ih2 := ih (by simp)
      show (b ++ ['\n']) ++ bodiesContent (b2 :: bs2) =
        joinNl (b :: b2 :: bs2) ++ ['\n']
      rw [ih2]
      simp [joinNl]

/-- `bodiesContent` distributes over append. -/
theorem bodiesContent_append (xs ys : List (List Char)) :
    bodiesContent (xs ++ ys) = bodiesContent xs ++ bodiesContent ys := by
  induction xs with
  | nil => rfl
  | cons x xs ih => simp [bodiesContent, ih]

/-- Splitting the newline join of newline-free bodies recovers the bodies. -/
theorem splitNl_joinNl (bodies : List (List Char)) (h : bodies ≠ [])
    (hnl : ∀ b ∈ bodies, '\n' ∉ b) :
    splitNl (joinNl bodies) = bodies := by
  induction bodies with
  | nil => exact absurd rfl h
  | cons b bs ih =>
    cases bs with
    | nil =>
      simp only [joinNl]
      exact splitNl_no_nl (hnl b (by simp))
    | cons b2 bs2 =>
      have hb1 : '\n' ∉ b := hnl b (by simp)
      have hb2 : ∀ x ∈ b2 :: bs2, '\n' ∉ x := fun x hx => hnl x (by simp [hx])
      simp only [joinNl]
      rw [splitNl_append _ hb1, ih (by simp) hb2]

/-- The newline join of a list whose first body starts with `c` starts
with `c`. -/
theorem joinNl_head (c : Char) (l1 : List Char) (bs : List (List Char)) :
    ∃ rest, joinNl ((c :: l1) :: bs) = c :: rest := by
  cases bs with
  | nil => exact ⟨l1, rfl⟩
  | cons b2 bs2 => exact ⟨l1 ++ '\n' :: joinNl (b2 :: bs2), rfl⟩

/-- The newline join of a list whose last body ends with `d` ends with `d`. -/
theorem joinNl_last (bodies : List (List Char)) (l2 : List Char) (d : Char)
    (h : bodies.getLast? = some (l2 ++ [d])) :
    ∃ pre, joinNl bodies = pre ++ [d] := by
  induction bodies with
  | nil => simp at h
  | cons b bs ih =>
    cases bs with
    | nil =>
      simp at h
      exact ⟨l2, by simp [joinNl, h]⟩
    | cons b2 bs2 =>
      have h2 : (b2 :: bs2).getLast? = some (l2 ++ [d]) := by
        simpa using h
      obtain ⟨pre, hp⟩ := ih h2
      exact ⟨b ++ '\n' :: pre, by simp [joinNl, hp]⟩

/-- Trimming a line block that starts and ends with non-whitespace strips
exactly the final newline. -/
theorem rustTrim_body_nl (l : List Char) (c : Char) (l1 : List Char)
    (d : Char) (l2 : List Char) (hc : l = c :: l1) (hd : l = l2 ++ [d])
    (hcw : rustIsWs c = false) (hdw : rustIsWs d = false) :
    rustTrim (l ++ ['\n']) = l := by
  unfold rustTrim
  have e1 : (l ++ ['\n']).dropWhile rustIsWs = l ++ ['\n'] := by
    rw [hc]
    simp [List.dropWhile_cons, hcw]
  rw [e1]
  have e2 : (l ++ ['\n']).reverse = '\n' :: l.reverse := by simp
  rw [e2]
  have e3 : ('\n' :: l.reverse).dropWhile rustIsWs =
      l.reverse.dropWhile rustIsWs := by
    simp [List.dropWhile_cons, show rustIsWs '\n' = true from by decide]
  rw [e3]
  have e4 : l.reverse = d :: l2.reverse := by
    rw [hd]
    simp
  rw [e4]
  have e5 : (d :: l2.reverse).dropWhile rustIsWs = d :: l2.reverse := by
    simp [List.dropWhile_cons, hdw]
  rw [e5, ← e4, List.reverse_reverse]

end TaleCast


namespace TaleCast

/-! ## Reduction of `loadMap` to per-line processing -/

/-- The load pipeline over a line-structured store whose first line starts
and last line ends with a non-whitespace character reduces to processing
the line bodies in order. -/
theorem loadMap_bodiesContent (bodies : List (List Char))
    (hnl : ∀ b ∈ bodies, '\n' ∉ b)
    (c : Char) (l1 : List Char) (hfirst : bodies.head? = some (c :: l1))
    (hc : rustIsWs c = false)
    (d : Char) (l2 : List Char) (hlastb : bodies.getLast? = some (l2 ++ [d]))
    (hd : rustIsWs d = false) :
    loadMap (bodiesContent bodies) = processLines [] bodies := by
  cases bodies with
  | nil => simp at hfirst
  | cons b bs =>
    have hb : b = c :: l1 := by simpa using hfirst
    subst hb
    unfold loadMap
    rw [bodiesContent_eq _ (by simp)]
    obtain ⟨rest0, hj⟩ := joinNl_head c l1 bs
    obtain ⟨pre, hpre⟩ := joinNl_last _ l2 d hlastb
    have hdnl : d ≠ '\n' := by
      intro h0
      rw [h0] at hd
      exact absurd hd (by decide)
    have htrim : rustTrim (joinNl ((c :: l1) :: bs) ++ ['\n']) =
        joinNl ((c :: l1) :: bs) :=
      rustTrim_body_nl _ c rest0 d pre hj hpre hc hd
    rw [htrim]
    have hne2 : (joinNl ((c :: l1) :: bs)).isEmpty = false := by
      rw [hj]
      rfl
    have hlast2 : (joinNl ((c :: l1) :: bs)).getLast? = some d := by
      rw [hpre]
      simp
    have hlns : rustLines (joinNl ((c :: l1) :: bs)) =
        (splitNl (joinNl ((c :: l1) :: bs))).map stripCR := by
      unfold rustLines
      rw [hne2, hlast2]
      simp [hdnl]
    rw [hlns, splitNl_joinNl _ (by simp) hnl, processLines_map_stripCR]

/-! ## Per-entry line processing -/

/-- Token structure of an appended line: the id and the timestamp are the
first two whitespace tokens. -/
theorem wsTokens_lineBody (guid : List Char) (ts : Int) (title : List Char)
    (hg : guid ≠ []) (hgw : ∀ c ∈ guid, rustIsWs c = false) :
    wsTokens (lineBody guid ts title) =
      guid :: intRepr ts :: wsTokens ('"' :: (title ++ ['"'])) := by
  unfold lineBody
  rw [wsTokens_token_cons guid _ hg hgw,
    wsTokens_token_cons (intRepr ts) _ (intRepr_ne_nil ts)
      (fun c hc => intRepr_no_ws hc)]

/-- Processing a wellformed appended line inserts exactly its id. -/
theorem processLine_lineBody (m : List (List Char × Nat)) (e : LedgerEntry)
    (he : entryOk e) :
    processLine m (entryBody e) =
      some (insertAssoc e.guid (u64OfI64 e.ts) m) := by
  obtain ⟨hg, hgw, ht, hr1, hr2⟩ := he
  unfold entryBody processLine
  rw [wsTokens_lineBody e.guid e.ts e.title hg hgw]
  simp [parseI64_intRepr hr1 hr2]

/-- Processing the lines of a sequence of wellformed appends folds the
inserts in order, from any starting map. -/
theorem processLines_entries (entries : List LedgerEntry)
    (hok : ∀ e ∈ entries, entryOk e) :
    ∀ m, processLines m (entries.map entryBody) =
      some (entries.foldl
        (fun m2 e => insertAssoc e.guid (u64OfI64 e.ts) m2) m) := by
  induction entries with
  | nil => intro m; rfl
  | cons e es ih =>
    intro m
    simp only [List.map_cons, List.foldl_cons]
    unfold processLines
    rw [processLine_lineBody m e (hok e (by simp))]
    exact ih (fun x hx => hok x (by simp [hx])) _

/-- The store content after a sequence of appends, line-structured. -/
theorem ledgerContent_eq (entries : List LedgerEntry) :
    ledgerContent entries = bodiesContent (entries.map entryBody) := by
  induction entries with
  | nil => rfl
  | cons e es ih => simp [ledgerContent, bodiesContent, appendLine, entryBody, ih]

/-- An appended line starts with the first character of its id. -/
theorem entryBody_cons (e : LedgerEntry) (c : Char) (l1 : List Char)
    (h : e.guid = c :: l1) :
    entryBody e = c :: (l1 ++ ' ' ::
      (intRepr e.ts ++ ' ' :: '"' :: (e.title ++ ['"']))) := by
  simp [entryBody, lineBody, h]

/-- An appended line ends with the closing quote. -/
theorem entryBody_concat (e : LedgerEntry) :
    ∃ pre, entryBody e = pre ++ ['"'] :=
  ⟨e.guid ++ ' ' :: (intRepr e.ts ++ ' ' :: '"' :: e.title),
    by simp [entryBody, lineBody]⟩

/-- An appended line contains no newline. -/
theorem nl_not_mem_entryBody (e : LedgerEntry) (he : entryOk e) :
    '\n' ∉ entryBody e := by
  obtain ⟨hg, hgw, ht, _, _⟩ := he
  have h1 : '\n' ∉ e.guid := fun h => absurd (hgw _ h) (by decide)
  have h2 : '\n' ∉ intRepr e.ts := fun h => absurd (intRepr_no_ws h) (by decide)
  have h3 : ('\n' : Char) ≠ ' ' := by decide
  have h4 : ('\n' : Char) ≠ '"' := by decide
  simp [entryBody, lineBody, h1, h2, h3, h4, ht]

/-- The last element of the mapped line list is the line of the last entry. -/
theorem getLast_map_entryBody (entries : List LedgerEntry) (h : entries ≠ []) :
    ∃ eL ∈ entries,
      (entries.map entryBody).getLast? = some (entryBody eL) := by
  induction entries with
  | nil => exact absurd rfl h
  | cons e es ih =>
    cases es with
    | nil => exact ⟨e, by simp, by simp⟩
    | cons e2 es2 =>
      obtain ⟨eL, hmem, hlast⟩ := ih (by simp)
      refine ⟨eL, by simp [hmem], ?_⟩
      simpa using hlast

/-- `loadMap` of a store written by wellformed appends is the insert fold. -/
theorem loadMap_ledgerContent (entries : List LedgerEntry)
    (hne : entries ≠ [])
    (hok : ∀ e ∈ entries, entryOk e) :
    loadMap (ledgerContent entries) =
      some (entries.foldl
        (fun m e => insertAssoc e.guid (u64OfI64 e.ts) m) []) := by
  rw [ledgerContent_eq]
  obtain ⟨e0, es, he0⟩ : ∃ e0 es, entries = e0 :: es := by
    cases entries with
    | nil => exact absurd rfl hne
    | cons x xs => exact ⟨x, xs, rfl⟩
  subst he0
  obtain ⟨c, l1, hguid⟩ : ∃ c l1, e0.guid = c :: l1 := by
    obtain ⟨hg, _⟩ := hok e0 (by simp)
    cases hx : e0.guid with
    | nil => exact absurd hx hg
    | cons y ys => exact ⟨y, ys, rfl⟩
  obtain ⟨eL, hmemL, hlastL⟩ := getLast_map_entryBody (e0 :: es) (by simp)
  obtain ⟨pre, hpre⟩ := entryBody_concat eL
  have hcw : rustIsWs c = false := by
    have := (hok e0 (by simp)).2.1
    exact this c (by rw [hguid]; simp)
  rw [loadMap_bodiesContent ((e0 :: es).map entryBody)
    (by
      intro b hb
      obtain ⟨e, he, hbe⟩ := List.mem_map.mp hb
      rw [← hbe]
      exact nl_not_mem_entryBody e (hok e he))
    c (l1 ++ ' ' :: (intRepr e0.ts ++ ' ' :: '"' :: (e0.title ++ ['"'])))
    (by simp [entryBody_cons e0 c l1 hguid])
    hcw
    '"' pre (by rw [hlastL, hpre]) (by decide)]
  exact processLines_entries (e0 :: es) hok []

end TaleCast


namespace TaleCast

/-! ## Insert-fold characterization -/

/-- Inserting a fresh key appends it at the end. -/
theorem insertAssoc_fresh (k : List Char) (v : Nat)
    (m : List (List Char × Nat)) (h : containsId m k = false) :
    insertAssoc k v m = m ++ [(k, v)] := by
  induction m with
  | nil => rfl
  | cons p ps ih =>
    obtain ⟨h1, h2⟩ : p.1 ≠ k ∧ containsId ps k = false := by
      simpa [containsId] using h
    cases p with
    | mk k' v' =>
      simp only at h1
      simp [insertAssoc, h1, ih h2]

/-- Folding inserts of pairwise-distinct fresh ids appends them in order. -/
theorem foldl_insert_fresh (entries : List LedgerEntry) :
    ∀ m, (∀ e ∈ entries, containsId m e.guid = false) →
      (entries.map LedgerEntry.guid).Nodup →
      entries.foldl (fun m2 e => insertAssoc e.guid (u64OfI64 e.ts) m2) m =
        m ++ entries.map entryPair := by
  induction entries with
  | nil => intro m _ _; simp
  | cons e es ih =>
    intro m hfresh hnd
    simp only [List.foldl_cons]
    have h1 : containsId m e.guid = false := hfresh e (by simp)
    rw [insertAssoc_fresh _ _ _ h1]
    obtain ⟨hng, hnd2⟩ : e.guid ∉ es.map LedgerEntry.guid ∧
        (es.map LedgerEntry.guid).Nodup := by simpa using hnd
    have hfresh2 : ∀ x ∈ es,
        containsId (m ++ [(e.guid, u64OfI64 e.ts)]) x.guid = false := by
      intro x hx
      have hxm : containsId m x.guid = false := hfresh x (by simp [hx])
      have hxg : e.guid ≠ x.guid := by
        intro hEq
        exact hng (List.mem_map.mpr ⟨x, hx, hEq.symm⟩)
      simp [containsId] at hxm ⊢
      exact ⟨hxm, fun h => absurd h hxg⟩
    rw [ih _ hfresh2 hnd2]
    simp [entryPair]

/-- Membership in the rebuilt map is membership among the appended ids. -/
theorem containsId_map_entryPair (entries : List LedgerEntry) (x : List Char) :
    containsId (entries.map entryPair) x = true ↔
      x ∈ entries.map LedgerEntry.guid := by
  simp [containsId, entryPair, List.any_eq_true, List.mem_map]

end TaleCast


namespace TaleCast

/-! ## Claim C6 -/

/-- C6 counterexample: an episode id containing whitespace breaks the
append-then-load round trip. With id `a 7` the loaded store records id `a`
(the token before the space) and timestamp 7 (the token after it), so the
appended id is not a member; with id `a b` the second token `b` fails the
`i64` parse and the whole load panics (`none`). -/
theorem ledger_roundtrip_ws_id_cex :
    loadMap (ledgerContent [⟨str "a 7", 5, str "t"⟩]) =
      some [(str "a", 7)] ∧
    containsId [(str "a", 7)] (str "a 7") = false ∧
    loadMap (ledgerContent [⟨str "a b", 5, str "t"⟩]) = none := by
  refine ⟨by decide, by decide, by decide⟩

/-- C6 (amended): appending N entries with distinct ids to an absent or
empty store and loading yields exactly those N ids, provided each id is
nonempty and whitespace-free, each title contains no newline, and each
timestamp is a representable `i64` (all true of `current_unix()` output and
ordinary feed ids): the loaded map is the appended pairs in order, its
membership test accepts exactly the appended ids, and it has exactly N
entries. -/
theorem ledger_append_load_roundtrip (entries : List LedgerEntry)
    (hok : ∀ e ∈ entries, entryOk e)
    (hnd : (entries.map LedgerEntry.guid).Nodup) :
    loadMap (ledgerContent entries) = some (entries.map entryPair) ∧
    (∀ x, containsId (entries.map entryPair) x = true ↔
      x ∈ entries.map LedgerEntry.guid) ∧
    (entries.map entryPair).length = entries.length := by
  refine ⟨?_, fun x => containsId_map_entryPair entries x, by simp⟩
  cases hme : entries with
  | nil => rfl
  | cons e0 es =>
    rw [← hme]
    rw [loadMap_ledgerContent entries (by rw [hme]; simp) hok]
    rw [foldl_insert_fresh entries [] (fun e he => rfl) hnd]
    simp

/-- C6 witness: two wellformed appends with distinct ids. -/
theorem ledger_append_load_roundtrip_witness :
    (∀ e ∈ [(⟨str "g1", 5, str "t1"⟩ : LedgerEntry),
        ⟨str "g2", 6, str "t2"⟩], entryOk e) ∧
    (([(⟨str "g1", 5, str "t1"⟩ : LedgerEntry),
        ⟨str "g2", 6, str "t2"⟩].map LedgerEntry.guid).Nodup) ∧
    (loadMap (ledgerContent [⟨str "g1", 5, str "t1"⟩,
        ⟨str "g2", 6, str "t2"⟩]) =
      some ([(⟨str "g1", 5, str "t1"⟩ : LedgerEntry),
        ⟨str "g2", 6, str "t2"⟩].map entryPair) ∧
      (∀ x, containsId ([(⟨str "g1", 5, str "t1"⟩ : LedgerEntry),
          ⟨str "g2", 6, str "t2"⟩].map entryPair) x = true ↔
        x ∈ [(⟨str "g1", 5, str "t1"⟩ : LedgerEntry),
          ⟨str "g2", 6, str "t2"⟩].map LedgerEntry.guid) ∧
      ([(⟨str "g1", 5, str "t1"⟩ : LedgerEntry),
        ⟨str "g2", 6, str "t2"⟩].map entryPair).length = 2) :=
  ⟨by decide, by decide,
    ledger_append_load_roundtrip
      [⟨str "g1", 5, str "t1"⟩, ⟨str "g2", 6, str "t2"⟩]
      (by decide) (by decide)⟩

end TaleCast


namespace TaleCast

/-! ## Claim C5 -/

/-- Line processing splits over append. -/
theorem processLines_append (xs ys : List (List Char)) :
    ∀ m, processLines m (xs ++ ys) =
      (processLines m xs).bind fun m2 => processLines m2 ys := by
  induction xs with
  | nil => intro m; simp [processLines]
  | cons x xs ih =>
    intro m
    simp only [List.cons_append]
    cases hp : processLine m x with
    | none => simp [processLines, hp]
    | some m2 => simp [processLines, hp, ih m2]

/-- A line with fewer than two whitespace tokens is skipped. -/
theorem processLine_skip (m : List (List Char × Nat)) (b : List Char)
    (h : (wsTokens b).length < 2) : processLine m b = some m := by
  rcases hts : wsTokens b with _ | ⟨t1, _ | ⟨t2, r⟩⟩
  · simp [processLine, hts]
  · simp [processLine, hts]
  · rw [hts] at h
    simp at h
    omega

/-- C5 counterexample: a corrupted line can have enough tokens but a
non-numeric second token; the `expect` in `DownloadedEpisodes::load` then
panics and the whole load fails instead of skipping the line: one corrupt
line (`g2 xx "b"`, three tokens) among two well-formed ones yields no
membership set at all, not a set of 2. -/
theorem ledger_load_badts_cex :
    loadMap (str "g1 100 \"a\"\ng2 xx \"b\"\ng3 300 \"c\"\n") = none ∧
    (wsTokens (str "g2 xx \"b\"")).length = 3 := by
  refine ⟨by decide, by decide⟩

/-- C5 (amended): loading skips a malformed line only when it has fewer
than two whitespace-separated tokens (a corrupt line with two or more
tokens whose second token is not a valid `i64` panics the load). With one
such short corrupt line between N wellformed appended lines with distinct
ids, the load succeeds and yields exactly those N ids. -/
theorem ledger_load_skips_short_lines (entries1 entries2 : List LedgerEntry)
    (c : List Char)
    (h1 : entries1 ≠ []) (h2 : entries2 ≠ [])
    (hok : ∀ e ∈ entries1 ++ entries2, entryOk e)
    (hnd : ((entries1 ++ entries2).map LedgerEntry.guid).Nodup)
    (hcnl : '\n' ∉ c) (hctok : (wsTokens c).length < 2) :
    loadMap (ledgerContent entries1 ++ (c ++ ['\n']) ++ ledgerContent entries2)
      = some ((entries1 ++ entries2).map entryPair) ∧
    (∀ x, containsId ((entries1 ++ entries2).map entryPair) x = true ↔
      x ∈ (entries1 ++ entries2).map LedgerEntry.guid) ∧
    ((entries1 ++ entries2).map entryPair).length =
      entries1.length + entries2.length := by
  refine ⟨?_, fun x => containsId_map_entryPair _ x, by simp⟩
  have hok1 : ∀ e ∈ entries1, entryOk e := fun e he => hok e (by simp [he])
  have hok2 : ∀ e ∈ entries2, entryOk e := fun e he => hok e (by simp [he])
  have hcontent :
      ledgerContent entries1 ++ (c ++ ['\n']) ++ ledgerContent entries2 =
        bodiesContent (entries1.map entryBody ++ [c] ++
          entries2.map entryBody) := by
    rw [ledgerContent_eq entries1, ledgerContent_eq entries2,
      bodiesContent_append, bodiesContent_append]
    simp [bodiesContent]
  rw [hcontent]
  obtain ⟨e0, es, he0⟩ : ∃ e0 es, entries1 = e0 :: es := by
    cases entries1 with
    | nil => exact absurd rfl h1
    | cons x xs => exact ⟨x, xs, rfl⟩
  obtain ⟨c0, l1, hguid⟩ : ∃ c0 l1, e0.guid = c0 :: l1 := by
    obtain ⟨hg, _⟩ := hok1 e0 (by rw [he0]; simp)
    cases hx : e0.guid with
    | nil => exact absurd hx hg
    | cons y ys => exact ⟨y, ys, rfl⟩
  have hc0w : rustIsWs c0 = false := by
    have := (hok1 e0 (by rw [he0]; simp)).2.1
    exact this c0 (by rw [hguid]; simp)
  obtain ⟨eL, hmemL, hlastL⟩ := getLast_map_entryBody entries2 h2
  obtain ⟨pre, hpre⟩ := entryBody_concat eL
  have hnl : ∀ b ∈ entries1.map entryBody ++ [c] ++ entries2.map entryBody,
      '\n' ∉ b := by
    intro b hb
    simp only [List.mem_append, List.mem_singleton] at hb
    rcases hb with (hb | rfl) | hb
    · obtain ⟨e, he, hbe⟩ := List.mem_map.mp hb
      rw [← hbe]
      exact nl_not_mem_entryBody e (hok1 e he)
    · exact hcnl
    · obtain ⟨e, he, hbe⟩ := List.mem_map.mp hb
      rw [← hbe]
      exact nl_not_mem_entryBody e (hok2 e he)
  have hhd : (entries1.map entryBody ++ [c] ++
      entries2.map entryBody).head? = some (c0 :: (l1 ++ ' ' ::
        (intRepr e0.ts ++ ' ' :: '"' :: (e0.title ++ ['"'])))) := by
    rw [he0]
    simp [entryBody_cons e0 c0 l1 hguid]
  have hlst : (entries1.map entryBody ++ [c] ++
      entries2.map entryBody).getLast? = some (pre ++ ['"']) := by
    rw [List.getLast?_append, hlastL, hpre]
    rfl
  rw [loadMap_bodiesContent _ hnl c0 _ hhd hc0w '"' pre hlst (by decide)]
  rw [processLines_append, processLines_append]
  rw [processLines_entries entries1 hok1 []]
  simp only [Option.some_bind]
  have hskip : processLines
      (entries1.foldl (fun m2 e => insertAssoc e.guid (u64OfI64 e.ts) m2) [])
      [c] = some (entries1.foldl
        (fun m2 e => insertAssoc e.guid (u64OfI64 e.ts) m2) []) := by
    unfold processLines
    rw [processLine_skip _ c hctok]
    rfl
  rw [hskip]
  simp only [Option.some_bind]
  rw [processLines_entries entries2 hok2 _]
  rw [← List.foldl_append]
  rw [foldl_insert_fresh (entries1 ++ entries2) [] (fun e he => rfl) hnd]
  rfl

end TaleCast


namespace TaleCast

/-- C5 witness: a one-token corrupt line between two wellformed lines. -/
theorem ledger_load_skips_short_lines_witness :
    ((wsTokens (str "oops")).length < 2) ∧
    (loadMap (ledgerContent [(⟨str "g1", 1, str "a"⟩ : LedgerEntry)] ++
        (str "oops" ++ ['\n']) ++
        ledgerContent [(⟨str "g2", 2, str "b"⟩ : LedgerEntry)]) =
      some (([(⟨str "g1", 1, str "a"⟩ : LedgerEntry)] ++
        [(⟨str "g2", 2, str "b"⟩ : LedgerEntry)]).map entryPair) ∧
      (∀ x, containsId (([(⟨str "g1", 1, str "a"⟩ : LedgerEntry)] ++
          [(⟨str "g2", 2, str "b"⟩ : LedgerEntry)]).map entryPair) x = true ↔
        x ∈ ([(⟨str "g1", 1, str "a"⟩ : LedgerEntry)] ++
          [(⟨str "g2", 2, str "b"⟩ : LedgerEntry)]).map LedgerEntry.guid) ∧
      (([(⟨str "g1", 1, str "a"⟩ : LedgerEntry)] ++
        [(⟨str "g2", 2, str "b"⟩ : LedgerEntry)]).map entryPair).length
        = 1 + 1) :=
  ⟨by decide,
    ledger_load_skips_short_lines [⟨str "g1", 1, str "a"⟩]
      [⟨str "g2", 2, str "b"⟩] (str "oops")
      (List.cons_ne_nil _ _) (List.cons_ne_nil _ _)
      (by decide) (by decide) (by decide) (by decide)⟩

/-! ## Claim C9 -/

/-- C9 counterexample: with an id containing whitespace (`c 7`), one append
then load yields a map keyed by the first token `c`, so the appended id
occurs zero times in the membership set, not once. -/
theorem ledger_idempotent_ws_cex :
    loadMap (ledgerContent [⟨str "c 7", 5, str "t"⟩]) =
      some [(str "c", 7)] ∧
    (([(str "c", 7)] : List (List Char × Nat)).map
      Prod.fst).count (str "c 7") = 0 := by
  refine ⟨by decide, by decide⟩

/-- C9 (amended): appending entries for one fixed id `k >= 1` times
(whitespace-free nonempty id, newline-free titles, `i64` timestamps) and
loading yields a map in which that id occurs exactly once: later lines for
the same id overwrite earlier ones in the id-keyed map. -/
theorem ledger_duplicate_appends (g : List Char)
    (items : List (Int × List Char)) (hne : items ≠ [])
    (hok : ∀ p ∈ items, entryOk ⟨g, p.1, p.2⟩) :
    ∃ v, loadMap (ledgerContent (items.map fun p => ⟨g, p.1, p.2⟩)) =
        some [(g, v)] ∧
      containsId [(g, v)] g = true ∧
      (([(g, v)] : List (List Char × Nat)).map Prod.fst).count g = 1 := by
  have hmapok : ∀ e ∈ items.map (fun p => (⟨g, p.1, p.2⟩ : LedgerEntry)),
      entryOk e := by
    intro e he
    obtain ⟨p, hp, rfl⟩ := List.mem_map.mp he
    exact hok p hp
  have hmne : items.map (fun p => (⟨g, p.1, p.2⟩ : LedgerEntry)) ≠ [] := by
    intro h0
    exact hne (List.map_eq_nil_iff.mp h0)
  rw [loadMap_ledgerContent _ hmne hmapok]
  have main : ∀ (qs : List (Int × List Char)) (v0 : Nat),
      ∃ v, (qs.map fun p => (⟨g, p.1, p.2⟩ : LedgerEntry)).foldl
          (fun m2 e => insertAssoc e.guid (u64OfI64 e.ts) m2) [(g, v0)] =
        [(g, v)] := by
    intro qs
    induction qs with
    | nil => intro v0; exact ⟨v0, rfl⟩
    | cons q qs2 ih =>
      intro v0
      simp only [List.map_cons, List.foldl_cons]
      have hstep :
          insertAssoc g (u64OfI64 q.1) [(g, v0)] = [(g, u64OfI64 q.1)] := by
        simp [insertAssoc]
      show ∃ v, (qs2.map fun p => (⟨g, p.1, p.2⟩ : LedgerEntry)).foldl
          (fun m2 e => insertAssoc e.guid (u64OfI64 e.ts) m2)
          (insertAssoc g (u64OfI64 q.1) [(g, v0)]) = [(g, v)]
      rw [hstep]
      exact ih (u64OfI64 q.1)
  cases items with
  | nil => exact absurd rfl hne
  | cons q qs =>
    simp only [List.map_cons, List.foldl_cons]
    obtain ⟨v, hv⟩ := main qs (u64OfI64 q.1)
    refine ⟨v, ?_, by simp [containsId], by simp⟩
    show some ((qs.map fun p => (⟨g, p.1, p.2⟩ : LedgerEntry)).foldl
        (fun m2 e => insertAssoc e.guid (u64OfI64 e.ts) m2)
        (insertAssoc g (u64OfI64 q.1) [])) = some [(g, v)]
    rw [show insertAssoc g (u64OfI64 q.1) ([] : List (List Char × Nat)) =
      [(g, u64OfI64 q.1)] from rfl]
    rw [hv]

/-- C9 witness: three appends of the same id at different times. -/
theorem ledger_duplicate_appends_witness :
    ([((1 : Int), str "a"), (2, str "b"), (3, str "d")] ≠ []) ∧
    (∃ v, loadMap (ledgerContent
        ([((1 : Int), str "a"), (2, str "b"), (3, str "d")].map
          fun p => ⟨str "g7", p.1, p.2⟩)) = some [(str "g7", v)] ∧
      containsId [(str "g7", v)] (str "g7") = true ∧
      (([(str "g7", v)] : List (List Char × Nat)).map
        Prod.fst).count (str "g7") = 1) :=
  ⟨by decide,
    ledger_duplicate_appends (str "g7")
      [((1 : Int), str "a"), (2, str "b"), (3, str "d")]
      (by decide) (by decide)⟩

end TaleCast


namespace TaleCast

/-! ## Claim C8: trace shape lemmas -/

/-- Exhaustive shapes of the per-episode event list, with the hook
configuration recorded for the shapes that reach the rename. -/
theorem epTrace_shapes (env : SyncEnv) (e : Nat) :
    epTrace env e = [.dl e false] ∨
    epTrace env e = [.dl e true, .app e false] ∨
    epTrace env e = [.dl e true, .app e true, .tagw e false] ∨
    epTrace env e = [.dl e true, .app e true, .tagw e true] ∨
    epTrace env e = [.dl e true, .app e true] ∨
    (env.hookCfg = false ∧
      epTrace env e = [.dl e true, .app e true, .tagw e true, .ren e]) ∨
    (env.hookCfg = true ∧ epTrace env e =
      [.dl e true, .app e true, .tagw e true, .ren e,
        .hook e (env.hookOk e)]) ∨
    (env.hookCfg = false ∧
      epTrace env e = [.dl e true, .app e true, .ren e]) ∨
    (env.hookCfg = true ∧
      epTrace env e = [.dl e true, .app e true, .ren e,
        .hook e (env.hookOk e)]) := by
  cases h1 : env.dlOk e <;> cases h2 : env.appOk e <;>
    cases h3 : env.isMp3 e <;> cases h4 : env.tagOk e <;>
    cases h5 : env.renOk e <;> cases h6 : env.hookCfg <;>
    simp [epTrace, renTrace, h1, h2, h3, h4, h5, h6]

/-- Every event of an episode's own trace carries that episode. -/
theorem filter_epTrace_self (env : SyncEnv) (e : Nat) :
    (epTrace env e).filter (fun x => evEp x = e) = epTrace env e := by
  rcases epTrace_shapes env e with h|h|h|h|h|⟨_,h⟩|⟨_,h⟩|⟨_,h⟩|⟨_,h⟩ <;>
    rw [h] <;> simp [evEp]

/-- No event of another episode's trace carries episode `e`. -/
theorem filter_epTrace_ne (env : SyncEnv) {e a : Nat} (hne : a ≠ e) :
    (epTrace env a).filter (fun x => evEp x = e) = [] := by
  rcases epTrace_shapes env a with h|h|h|h|h|⟨_,h⟩|⟨_,h⟩|⟨_,h⟩|⟨_,h⟩ <;>
    rw [h] <;> simp [evEp, hne]

/-- If episode `e` never appears in the schedule, the run trace has no
events for it. -/
theorem filter_syncTrace_notmem (env : SyncEnv) (e : Nat) :
    ∀ es : List Nat, e ∉ es →
      (syncTrace env es).filter (fun x => evEp x = e) = [] := by
  intro es
  induction es with
  | nil => intro _; rfl
  | cons a as ih =>
    intro hmem
    have hne : a ≠ e := fun h => hmem (by simp [h])
    have hmem2 : e ∉ as := fun h => hmem (by simp [h])
    by_cases hok : epOk env a = true <;>
      simp [syncTrace, List.filter_append, hok, filter_epTrace_ne env hne,
        ih hmem2]

/-- The events of episode `e` in a run over distinct episodes are exactly
its own per-episode trace, or nothing if the run aborted before reaching
it. -/
theorem filter_syncTrace (env : SyncEnv) (e : Nat) :
    ∀ es : List Nat, es.Nodup →
      ((syncTrace env es).filter (fun x => evEp x = e) = epTrace env e ∧
        e ∈ es) ∨
      (syncTrace env es).filter (fun x => evEp x = e) = [] := by
  intro es
  induction es with
  | nil => intro _; right; rfl
  | cons a as ih =>
    intro hnd
    obtain ⟨hna, hnd2⟩ : a ∉ as ∧ as.Nodup := by simpa using hnd
    by_cases hae : a = e
    · subst hae
      left
      refine ⟨?_, by simp⟩
      by_cases hok : epOk env a = true <;>
        simp [syncTrace, List.filter_append, hok, filter_epTrace_self,
          filter_syncTrace_notmem env a as hna]
    · by_cases hok : epOk env a = true
      · rcases ih hnd2 with ⟨hfil, hmem⟩ | hfil
        · left
          refine ⟨?_, by simp [hmem]⟩
          simp [syncTrace, List.filter_append, hok,
            filter_epTrace_ne env hae, hfil]
        · right
          simp [syncTrace, List.filter_append, hok,
            filter_epTrace_ne env hae, hfil]
      · right
        simp [syncTrace, List.filter_append, hok, filter_epTrace_ne env hae]

end TaleCast


namespace TaleCast

/-- Any ledger-append event in an episode's trace is preceded by its
successful download. -/
theorem epTrace_app_sublist (env : SyncEnv) (e : Nat) (b : Bool)
    (hb : SyncEv.app e b ∈ epTrace env e) :
    List.Sublist [SyncEv.dl e true, SyncEv.app e b] (epTrace env e) := by
  rcases epTrace_shapes env e with h|h|h|h|h|⟨_,h⟩|⟨_,h⟩|⟨_,h⟩|⟨_,h⟩ <;>
    rw [h] at hb ⊢ <;> simp at hb <;>
    subst hb <;> simp [List.cons_sublist_cons]

/-- Any rename event in an episode's trace is preceded by its successful
download and successful ledger append, in that order. -/
theorem epTrace_ren_sublist (env : SyncEnv) (e : Nat)
    (hb : SyncEv.ren e ∈ epTrace env e) :
    List.Sublist [SyncEv.dl e true, SyncEv.app e true, SyncEv.ren e]
      (epTrace env e) := by
  rcases epTrace_shapes env e with h|h|h|h|h|⟨_,h⟩|⟨_,h⟩|⟨_,h⟩|⟨_,h⟩ <;>
    rw [h] at hb ⊢ <;> simp at hb <;>
    first
      | exact List.Sublist.refl _
      | exact ((((List.Sublist.refl [SyncEv.ren e]).cons _).cons₂ _).cons₂ _)
      | exact (((((List.nil_sublist _).cons₂ _).cons _).cons₂ _).cons₂ _)
      | exact (((List.nil_sublist _).cons₂ _).cons₂ _).cons₂ _

/-- Any hook event in an episode's trace follows its rename. -/
theorem epTrace_hook_sublist (env : SyncEnv) (e : Nat) (b : Bool)
    (hb : SyncEv.hook e b ∈ epTrace env e) :
    List.Sublist [SyncEv.ren e, SyncEv.hook e b] (epTrace env e) := by
  rcases epTrace_shapes env e with h|h|h|h|h|⟨_,h⟩|⟨_,h⟩|⟨_,h⟩|⟨_,h⟩ <;>
    rw [h] at hb ⊢ <;> simp at hb <;> subst hb <;>
    first
      | exact (((List.Sublist.refl _).cons _).cons _).cons _
      | exact ((List.Sublist.refl _).cons _).cons _

/-- Hook events for an episode appear exactly once if a hook is configured
and the episode's rename happened, and never otherwise. -/
theorem epTrace_hook_count (env : SyncEnv) (e : Nat) :
    (epTrace env e).countP (isHookFor e) =
      if env.hookCfg = true ∧ SyncEv.ren e ∈ epTrace env e then 1
      else 0 := by
  rcases epTrace_shapes env e with h|h|h|h|h|hh|hh|hh|hh
  · rw [h]; simp [isHookFor, List.countP_cons]
  · rw [h]; simp [isHookFor, List.countP_cons]
  · rw [h]; simp [isHookFor, List.countP_cons]
  · rw [h]; simp [isHookFor, List.countP_cons]
  · rw [h]; simp [isHookFor, List.countP_cons]
  · obtain ⟨hc, h⟩ := hh
    rw [h]; simp [isHookFor, List.countP_cons, hc]
  · obtain ⟨hc, h⟩ := hh
    rw [h]; simp [isHookFor, List.countP_cons, hc]
  · obtain ⟨hc, h⟩ := hh
    rw [h]; simp [isHookFor, List.countP_cons, hc]
  · obtain ⟨hc, h⟩ := hh
    rw [h]; simp [isHookFor, List.countP_cons, hc]

/-- A hook event for `e` is an event of episode `e`. -/
theorem isHookFor_evEp {e : Nat} {x : SyncEv} (h : isHookFor e x = true) :
    evEp x = e := by
  cases x with
  | dl e2 b => simp [isHookFor] at h
  | app e2 b => simp [isHookFor] at h
  | tagw e2 b => simp [isHookFor] at h
  | ren e2 => simp [isHookFor] at h
  | hook e2 b =>
    simp [isHookFor] at h
    simp [evEp, h]

end TaleCast


namespace TaleCast

/-- C8: in every run of the per-feed sync loop over distinct episodes, and
for every episode `e`: any ledger-append event for `e` is preceded by `e`'s
successful download (an episode is never recorded unless its transfer fully
succeeded); any rename (naming) event for `e` is preceded by its successful
download and successful ledger append, in that order; any hook event for
`e` follows its rename; and the hook fires exactly once per renamed file
when a hook is configured, never otherwise. -/
theorem sync_step_order (env : SyncEnv) (es : List Nat) (e : Nat)
    (hnd : es.Nodup) :
    (∀ b, SyncEv.app e b ∈ syncTrace env es →
      List.Sublist [SyncEv.dl e true, SyncEv.app e b] (syncTrace env es)) ∧
    (SyncEv.ren e ∈ syncTrace env es →
      List.Sublist [SyncEv.dl e true, SyncEv.app e true, SyncEv.ren e]
        (syncTrace env es)) ∧
    (∀ b, SyncEv.hook e b ∈ syncTrace env es →
      List.Sublist [SyncEv.ren e, SyncEv.hook e b] (syncTrace env es)) ∧
    ((syncTrace env es).countP (isHookFor e) =
      if env.hookCfg = true ∧ SyncEv.ren e ∈ syncTrace env es then 1
      else 0) := by
  have hcnt : (syncTrace env es).countP (isHookFor e) =
      ((syncTrace env es).filter (fun x => evEp x = e)).countP
        (isHookFor e) := by
    rw [List.countP_filter]
    refine List.countP_congr fun x hx => ?_
    constructor
    · intro hp
      simp [hp, isHookFor_evEp hp]
    · intro hp
      simp only [Bool.and_eq_true] at hp
      exact hp.1
  rcases filter_syncTrace env e es hnd with ⟨hfil, _⟩ | hfil
  · have hsub : List.Sublist (epTrace env e) (syncTrace env es) := by
      rw [← hfil]
      exact List.filter_sublist _
    have hmemiff : ∀ x : SyncEv, evEp x = e →
        (x ∈ syncTrace env es ↔ x ∈ epTrace env e) := by
      intro x hxe
      constructor
      · intro hx
        rw [← hfil]
        exact List.mem_filter.mpr ⟨hx, by simp [hxe]⟩
      · intro hx
        exact hsub.subset hx
    refine ⟨?_, ?_, ?_, ?_⟩
    · intro b hb
      exact (epTrace_app_sublist env e b
        ((hmemiff (SyncEv.app e b) rfl).mp hb)).trans hsub
    · intro hb
      exact (epTrace_ren_sublist env e
        ((hmemiff (SyncEv.ren e) rfl).mp hb)).trans hsub
    · intro b hb
      exact (epTrace_hook_sublist env e b
        ((hmemiff (SyncEv.hook e b) rfl).mp hb)).trans hsub
    · rw [hcnt, hfil, epTrace_hook_count]
      simp only [hmemiff (SyncEv.ren e) rfl]
  · have hnomem : ∀ x : SyncEv, evEp x = e → x ∉ syncTrace env es := by
      intro x hxe hx
      have hxf : x ∈ (syncTrace env es).filter (fun y => evEp y = e) :=
        List.mem_filter.mpr ⟨hx, by simp [hxe]⟩
      rw [hfil] at hxf
      simp at hxf
    refine ⟨?_, ?_, ?_, ?_⟩
    · intro b hb
      exact absurd hb (hnomem (SyncEv.app e b) rfl)
    · intro hb
      exact absurd hb (hnomem (SyncEv.ren e) rfl)
    · intro b hb
      exact absurd hb (hnomem (SyncEv.hook e b) rfl)
    · rw [hcnt, hfil]
      have : SyncEv.ren e ∉ syncTrace env es := hnomem (SyncEv.ren e) rfl
      simp [this]

/-- C8 witness: an all-success run over episodes `[0, 1]`, hook configured,
checked for episode 0. -/
theorem sync_step_order_witness :
    ([0, 1] : List Nat).Nodup ∧
    ((∀ b, SyncEv.app 0 b ∈ syncTrace
        ⟨fun _ => true, fun _ => true, fun _ => true, fun _ => true,
          fun _ => true, true, fun _ => true⟩ [0, 1] →
      List.Sublist [SyncEv.dl 0 true, SyncEv.app 0 b] (syncTrace
        ⟨fun _ => true, fun _ => true, fun _ => true, fun _ => true,
          fun _ => true, true, fun _ => true⟩ [0, 1])) ∧
    (SyncEv.ren 0 ∈ syncTrace
        ⟨fun _ => true, fun _ => true, fun _ => true, fun _ => true,
          fun _ => true, true, fun _ => true⟩ [0, 1] →
      List.Sublist [SyncEv.dl 0 true, SyncEv.app 0 true, SyncEv.ren 0]
        (syncTrace ⟨fun _ => true, fun _ => true, fun _ => true,
          fun _ => true, fun _ => true, true, fun _ => true⟩ [0, 1])) ∧
    (∀ b, SyncEv.hook 0 b ∈ syncTrace
        ⟨fun _ => true, fun _ => true, fun _ => true, fun _ => true,
          fun _ => true, true, fun _ => true⟩ [0, 1] →
      List.Sublist [SyncEv.ren 0, SyncEv.hook 0 b] (syncTrace
        ⟨fun _ => true, fun _ => true, fun _ => true, fun _ => true,
          fun _ => true, true, fun _ => true⟩ [0, 1])) ∧
    ((syncTrace ⟨fun _ => true, fun _ => true, fun _ => true, fun _ => true,
        fun _ => true, true, fun _ => true⟩ [0, 1]).countP (isHookFor 0) =
      if (⟨fun _ => true, fun _ => true, fun _ => true, fun _ => true,
          fun _ => true, true, fun _ => true⟩ : SyncEnv).hookCfg = true ∧
        SyncEv.ren 0 ∈ syncTrace ⟨fun _ => true, fun _ => true,
          fun _ => true, fun _ => true, fun _ => true, true,
          fun _ => true⟩ [0, 1] then 1 else 0)) :=
  ⟨by decide,
    sync_step_order
      ⟨fun _ => true, fun _ => true, fun _ => true, fun _ => true,
        fun _ => true, true, fun _ => true⟩ [0, 1] 0 (by decide)⟩

end TaleCast

